import Mathlib

/-!
Verification of the sandhi-reversal engine of this repository.

The engine (`ImprovedSandhiReverser` in `sandhi-parser.py`) is embedded
shallowly: Python strings become `List Char`, the per-instance lexicon set
becomes an explicit `Lexicon` argument, the eleven bound rule methods become
pure Lean functions, and the memoized recursive search `_find_splits`
becomes a fuel-indexed function (`none` = the recursion does not come back,
which really happens: the dīrgha rule can propose a remainder equal to its
own input).  A rule that raises is modelled as a rule returning `none`,
matching the `try/except: continue` in `_find_splits`.  The forward
transformation `apply_vowel_sandhi` of `sandhi-model.py` is embedded for the
round-trip property.
-/

namespace SandhiRev

abbrev Text := List Char
abbrev Word := List Char
abbrev Split := List Word
abbrev Lexicon := List Word
abbrev Hyp := Word × Text

/-- The apostrophe character (U+0027) used by the avagraha patterns. -/
def apos : Char := Char.ofNat 39

/-- `self.vowels = set('aāiīuūṛṝḷḹeēoōaiāī auāū')`; the Python string
contains a space, so the space character is (faithfully) a member. -/
def vowelChars : List Char :=
  ['a', 'ā', 'i', 'ī', 'u', 'ū', 'ṛ', 'ṝ', 'ḷ', 'ḹ', 'e', 'ē', 'o', 'ō', ' ']

/-- `self.voiced_consonants = set('gghḍddhbβjjhyrlvhṃṅṇnm')`. -/
def voicedConsonants : List Char :=
  ['g', 'h', 'ḍ', 'd', 'b', 'β', 'j', 'y', 'r', 'l', 'v', 'ṃ', 'ṅ', 'ṇ', 'n', 'm']

/-- Python `text.find(pat)`: index of the first occurrence of `pat` as a
substring, `none` when absent (Python returns `-1`). -/
def strFind (pat : List Char) : List Char → Option Nat
  | [] => if pat = [] then some 0 else none
  | c :: rest =>
    if pat <+: (c :: rest) then some 0
    else (strFind pat rest).map (· + 1)

/-- `_has_valid_continuation`: the remainder is empty, or some lexicon word
starts with one of its prefixes of length `1 .. min(len(remainder)+1, 10) - 1`. -/
def hasValidContinuation (lex : Lexicon) (r : Text) : Prop :=
  r = [] ∨ ∃ l ∈ List.range' 1 (min r.length 9), ∃ w ∈ lex, (r.take l) <+: w

instance (lex : Lexicon) (r : Text) : Decidable (hasValidContinuation lex r) := by
  unfold hasValidContinuation; infer_instance

/-- `_reverse_avagraha_patterns`: the three elision patterns, in source
order (`o'`, `e'`, `a'`); only the first occurrence of each is used. -/
def reverse_avagraha_patterns (t : Text) : List Hyp :=
  (match strFind ['o', apos] t with
   | some pos =>
     if 0 < pos then [(t.take pos ++ ['a', 'ḥ'], 'a' :: t.drop (pos + 2))] else []
   | none => []) ++
  (match strFind ['e', apos] t with
   | some pos => [(t.take (pos + 1), 'a' :: t.drop (pos + 2))]
   | none => []) ++
  (match strFind ['a', apos] t with
   | some pos => [(t.take (pos + 1), 'a' :: t.drop (pos + 2))]
   | none => [])

/-- `_reverse_vṛddhi_sandhi`: `ai` and `au` are each split (at the first
occurrence) into `…a` plus each candidate initial that leaves a remainder
with a valid continuation. -/
def reverse_vrddhi_sandhi (lex : Lexicon) (t : Text) : List Hyp :=
  (match strFind ['a', 'i'] t with
   | some pos =>
     if 0 < pos then
       [['i'], ['e'], ['a', 'i']].filterMap (fun sv =>
         if hasValidContinuation lex (sv ++ t.drop (pos + 2)) then
           some (t.take pos ++ ['a'], sv ++ t.drop (pos + 2))
         else none)
     else []
   | none => []) ++
  (match strFind ['a', 'u'] t with
   | some pos =>
     if 0 < pos then
       [['u'], ['o'], ['a', 'u']].filterMap (fun sv =>
         if hasValidContinuation lex (sv ++ t.drop (pos + 2)) then
           some (t.take pos ++ ['a'], sv ++ t.drop (pos + 2))
         else none)
     else []
   | none => [])

/-- `_reverse_guṇa_sandhi`: the first `e` is split as `…a` + `i…`, the first
`o` as `…a` + `u…`, each guarded by `_has_valid_continuation`. -/
def reverse_guna_sandhi (lex : Lexicon) (t : Text) : List Hyp :=
  (match strFind ['e'] t with
   | some pos =>
     if 0 < pos then
       if hasValidContinuation lex ('i' :: t.drop (pos + 1)) then
         [(t.take pos ++ ['a'], 'i' :: t.drop (pos + 1))]
       else []
     else []
   | none => []) ++
  (match strFind ['o'] t with
   | some pos =>
     if 0 < pos then
       if hasValidContinuation lex ('u' :: t.drop (pos + 1)) then
         [(t.take pos ++ ['a'], 'u' :: t.drop (pos + 1))]
       else []
     else []
   | none => [])

/-- The long/short vowel mapping of `_reverse_dīrgha_sandhi`, in the
source's (insertion) order. -/
def dirghaPairs : List (Char × Char) :=
  [('ā', 'a'), ('ī', 'i'), ('ū', 'u'), ('ṝ', 'ṛ'), ('ḹ', 'ḷ')]

/-- `_reverse_dīrgha_sandhi`: for each long vowel present (first occurrence
`pos > 0`), try every split position in `range(max(0, pos-3), min(len, pos+4))`
with `0 < split_pos < len`, replacing the character before the split by the
short vowel; the reconstructed word is checked against the lexicon. -/
def reverse_dirgha_sandhi (lex : Lexicon) (t : Text) : List Hyp :=
  dirghaPairs.flatMap (fun p =>
    match strFind [p.1] t with
    | some pos =>
      if 0 < pos then
        (List.range' (pos - 3) (min t.length (pos + 4) - (pos - 3))).filterMap
          (fun sp =>
            if 0 < sp ∧ sp < t.length then
              if (t.take (sp - 1) ++ [p.2]) ∈ lex then
                some (t.take (sp - 1) ++ [p.2], p.2 :: t.drop sp)
              else none
            else none)
      else []
    | none => [])

/-- One half of `_reverse_yaṇ_sandhi`: positions `0 < i < len - 1` holding
the semivowel and followed by a vowel, with the lexicon check. -/
def yanHalf (lex : Lexicon) (t : Text) (semiv repl : Char) : List Hyp :=
  (List.range t.length).filterMap (fun i =>
    match t[i]?, t[i + 1]? with
    | some c, some c1 =>
      if c = semiv ∧ 0 < i ∧ i + 1 < t.length ∧ c1 ∈ vowelChars then
        if (t.take i ++ [repl]) ∈ lex then
          some (t.take i ++ [repl], t.drop (i + 1))
        else none
      else none
    | _, _ => none)

/-- `_reverse_yaṇ_sandhi`: all `y → i` positions, then all `v → u` positions. -/
def reverse_yan_sandhi (lex : Lexicon) (t : Text) : List Hyp :=
  yanHalf lex t 'y' 'i' ++ yanHalf lex t 'v' 'u'

/-- `_reverse_visarga_before_voiced`: `r` from visarga (after `a/i/u/ṛ`,
before a voiced consonant), then visarga reinsertion after a vowel before a
voiced consonant. -/
def reverse_visarga_before_voiced (lex : Lexicon) (t : Text) : List Hyp :=
  ((List.range t.length).filterMap (fun i =>
    match t[i]?, t[i + 1]?, t[i - 1]? with
    | some c, some c1, some c0 =>
      if c = 'r' ∧ 0 < i ∧ i + 1 < t.length ∧ c1 ∈ voicedConsonants ∧
          c0 ∈ (['a', 'i', 'u', 'ṛ'] : List Char) then
        if (t.take i ++ ['ḥ']) ∈ lex then
          some (t.take i ++ ['ḥ'], t.drop (i + 1))
        else none
      else none
    | _, _, _ => none)) ++
  ((List.range (t.length - 1)).filterMap (fun i =>
    match t[i]?, t[i + 1]? with
    | some c, some c1 =>
      if c ∈ vowelChars ∧ c1 ∈ voicedConsonants then
        if (t.take (i + 1) ++ ['ḥ']) ∈ lex then
          some (t.take (i + 1) ++ ['ḥ'], t.drop (i + 1))
        else none
      else none
    | _, _ => none))

/-- `_reverse_visarga_before_unvoiced`: for each sibilant `s`, `ś`, `ṣ` in
that order, each occurrence at `i > 0` becomes a visarga; the sibilant
itself stays at the head of the remainder. -/
def reverse_visarga_before_unvoiced (lex : Lexicon) (t : Text) : List Hyp :=
  (['s', 'ś', 'ṣ'] : List Char).flatMap (fun sib =>
    (List.range t.length).filterMap (fun i =>
      match t[i]? with
      | some c =>
        if c = sib ∧ 0 < i then
          if (t.take i ++ ['ḥ']) ∈ lex then
            some (t.take i ++ ['ḥ'], t.drop i)
          else none
        else none
      | none => none))

/-- `_reverse_visarga_special`: returns no hypotheses. -/
def reverse_visarga_special (_lex : Lexicon) (_t : Text) : List Hyp := []

/-- The doubled consonants of `_reverse_consonant_clusters`, in source order. -/
def doubleClusters : List (List Char) :=
  [['t', 't'], ['k', 'k'], ['p', 'p'], ['c', 'c'], ['ṭ', 'ṭ']]

/-- `_reverse_consonant_clusters`: at the first occurrence (`pos > 0`) of a
doubled consonant, split between the two copies; lexicon-checked. -/
def reverse_consonant_clusters (lex : Lexicon) (t : Text) : List Hyp :=
  doubleClusters.flatMap (fun d =>
    match strFind d t with
    | some pos =>
      if 0 < pos then
        if t.take (pos + 1) ∈ lex then [(t.take (pos + 1), t.drop (pos + 1))]
        else []
      else []
    | none => [])

/-- `_reverse_nasal_assimilation`: returns no hypotheses. -/
def reverse_nasal_assimilation (_lex : Lexicon) (_t : Text) : List Hyp := []

/-- `_reverse_final_vowel_changes`: returns no hypotheses. -/
def reverse_final_vowel_changes (_lex : Lexicon) (_t : Text) : List Hyp := []

/-- A rule as the engine sees it: `none` models a rule whose evaluation
raises (swallowed by the `try/except` in `_find_splits`). -/
abbrev Rule := Lexicon → Text → Option (List Hyp)

/-- `self.sandhi_rules`: the eleven rules in their source order; the actual
rules never raise. -/
def sandhiRules : List Rule :=
  [fun _ t => some (reverse_avagraha_patterns t),
   fun lex t => some (reverse_vrddhi_sandhi lex t),
   fun lex t => some (reverse_guna_sandhi lex t),
   fun lex t => some (reverse_dirgha_sandhi lex t),
   fun lex t => some (reverse_yan_sandhi lex t),
   fun lex t => some (reverse_visarga_before_voiced lex t),
   fun lex t => some (reverse_visarga_before_unvoiced lex t),
   fun lex t => some (reverse_visarga_special lex t),
   fun lex t => some (reverse_consonant_clusters lex t),
   fun lex t => some (reverse_nasal_assimilation lex t),
   fun lex t => some (reverse_final_vowel_changes lex t)]

/-- The prefix lengths tried by the raw-prefix fallback:
`range(1, min(len(text), 15))`. -/
def fallbackIndices (t : Text) : List Nat :=
  List.range' 1 (min t.length 15 - 1)

/-- The hypothesis loop of `_find_splits` (lines 81–85): for each proposed
`(first_word, remainder)` whose `first_word` is in the lexicon, solve the
remainder through `recur` and prepend; contributions keep source order.
A recursive call that does not come back (`recur _ = none`) makes the whole
search not come back. -/
def processHyps (lex : Lexicon) (recur : Text → Option (List Split)) :
    List Hyp → Option (List Split)
  | [] => some []
  | (w, r) :: rest =>
    if w ∈ lex then
      match recur r with
      | none => none
      | some rs =>
        match processHyps lex recur rest with
        | none => none
        | some ts => some (rs.map (fun s => w :: s) ++ ts)
    else processHyps lex recur rest

/-- The rule loop of `_find_splits` (lines 78–87): rules fire in order; a
rule that raises (`none`) is skipped (`except Exception: continue`). -/
def processRules (lex : Lexicon) (recur : Text → Option (List Split)) (t : Text) :
    List Rule → Option (List Split)
  | [] => some []
  | rule :: rest =>
    match rule lex t with
    | none => processRules lex recur t rest
    | some hyps =>
      match processHyps lex recur hyps with
      | none => none
      | some s1 =>
        match processRules lex recur t rest with
        | none => none
        | some s2 => some (s1 ++ s2)

/-- The raw-prefix fallback loop of `_find_splits` (lines 90–96). -/
def processFallback (lex : Lexicon) (recur : Text → Option (List Split)) (t : Text) :
    List Nat → Option (List Split)
  | [] => some []
  | i :: rest =>
    if t.take i ∈ lex then
      match recur (t.drop i) with
      | none => none
      | some ss =>
        match processFallback lex recur t rest with
        | none => none
        | some ts => some (ss.map (fun s => t.take i :: s) ++ ts)
    else processFallback lex recur t rest

/-- `_find_splits` with the memo cache disabled, parameterized by the rule
list and indexed by fuel; `none` means the recursion does not terminate
within the given fuel. -/
def findSplitsAux (rules : List Rule) (lex : Lexicon) : Nat → Text → Option (List Split)
  | 0, _ => none
  | fuel + 1, t =>
    if t = [] then some [[]]
    else
      match processRules lex (findSplitsAux rules lex fuel) t rules with
      | none => none
      | some s1 =>
        match processFallback lex (findSplitsAux rules lex fuel) t (fallbackIndices t) with
        | none => none
        | some s2 => some ((if t ∈ lex then [[t]] else []) ++ s1 ++ s2)

/-- `_find_splits` without memoization, with the engine's own rule set. -/
def find_splits (lex : Lexicon) (fuel : Nat) (t : Text) : Option (List Split) :=
  findSplitsAux sandhiRules lex fuel t

/-- `self.memo`: a string-keyed mapping, modelled as an association list
where insertion conses (the most recent binding wins on lookup, as in a dict). -/
abbrev Memo := List (Text × List Split)

/-- Lookup in the memo cache (`text in self.memo` / `self.memo[text]`). -/
def memoLookup : Memo → Text → Option (List Split)
  | [], _ => none
  | (k, v) :: rest, t => if k = t then some v else memoLookup rest t

/-- The hypothesis loop threading the memo cache through recursive calls. -/
def processHypsM (lex : Lexicon) (recur : Memo → Text → Option (Memo × List Split)) :
    Memo → List Hyp → Option (Memo × List Split)
  | m, [] => some (m, [])
  | m, (w, r) :: rest =>
    if w ∈ lex then
      match recur m r with
      | none => none
      | some (m1, rs) =>
        match processHypsM lex recur m1 rest with
        | none => none
        | some (m2, ts) => some (m2, rs.map (fun s => w :: s) ++ ts)
    else processHypsM lex recur m rest

/-- The rule loop threading the memo cache. -/
def processRulesM (lex : Lexicon) (recur : Memo → Text → Option (Memo × List Split))
    (t : Text) : Memo → List Rule → Option (Memo × List Split)
  | m, [] => some (m, [])
  | m, rule :: rest =>
    match rule lex t with
    | none => processRulesM lex recur t m rest
    | some hyps =>
      match processHypsM lex recur m hyps with
      | none => none
      | some (m1, s1) =>
        match processRulesM lex recur t m1 rest with
        | none => none
        | some (m2, s2) => some (m2, s1 ++ s2)

/-- The raw-prefix fallback loop threading the memo cache. -/
def processFallbackM (lex : Lexicon) (recur : Memo → Text → Option (Memo × List Split))
    (t : Text) : Memo → List Nat → Option (Memo × List Split)
  | m, [] => some (m, [])
  | m, i :: rest =>
    if t.take i ∈ lex then
      match recur m (t.drop i) with
      | none => none
      | some (m1, ss) =>
        match processFallbackM lex recur t m1 rest with
        | none => none
        | some (m2, ts) => some (m2, ss.map (fun s => t.take i :: s) ++ ts)
    else processFallbackM lex recur t m rest

/-- `_find_splits` as written (memoized): a cache hit returns immediately;
otherwise the whole-match, rule and fallback hypotheses are gathered in
order and the result is cached under the text before returning. -/
def memoFindAux (rules : List Rule) (lex : Lexicon) :
    Nat → Memo → Text → Option (Memo × List Split)
  | 0, _, _ => none
  | fuel + 1, m, t =>
    if t = [] then some (m, [[]])
    else
      match memoLookup m t with
      | some r => some (m, r)
      | none =>
        match processRulesM lex (memoFindAux rules lex fuel) t m rules with
        | none => none
        | some (m1, s1) =>
          match processFallbackM lex (memoFindAux rules lex fuel) t m1 (fallbackIndices t) with
          | none => none
          | some (m2, s2) =>
            let all := (if t ∈ lex then [[t]] else []) ++ s1 ++ s2
            some ((t, all) :: m2, all)

/-- `_find_splits` with memoization and the engine's own rule set. -/
def find_splits_memo (lex : Lexicon) (fuel : Nat) (m : Memo) (t : Text) :
    Option (Memo × List Split) :=
  memoFindAux sandhiRules lex fuel m t

/-- Whitespace as stripped by Python `str.strip()` (the ASCII whitespace
characters; the inputs are IAST romanized text). -/
def isPyWhitespace (c : Char) : Bool :=
  c = ' ' || c = '\t' || c = '\n' || c = '\x0d' || c = '\x0b' || c = '\x0c'

/-- Python `s.strip()`: remove leading and trailing whitespace. -/
def pyStrip (t : List Char) : List Char :=
  ((t.dropWhile isPyWhitespace).reverse.dropWhile isPyWhitespace).reverse

/-- `samhita_line.replace(' ', '').strip()` in `reverse_sandhi`. -/
def normalizeLine (line : List Char) : List Char :=
  pyStrip (line.filter (fun c => ¬(c = ' ')))

/-- `reverse_sandhi`: reset the memo, strip the line, return `[]` for an
empty text, otherwise the first split found, or `None` (`some none` here)
when `_find_splits` found nothing.  The outer `none` is fuel exhaustion. -/
def reverse_sandhi (lex : Lexicon) (fuel : Nat) (line : List Char) :
    Option (Option Split) :=
  let text := normalizeLine line
  if text = [] then some (some [])
  else
    match memoFindAux sandhiRules lex fuel [] text with
    | none => none
    | some (_, rs) => some rs.head?

/-- `reverse_sandhi` with the reverser object's surviving `self.memo` made
explicit: the incoming state is the cache left over from a previous call,
and the first statement of the method replaces it by a fresh empty cache. -/
def reverse_sandhi_stateful (lex : Lexicon) (fuel : Nat) (state : Memo)
    (line : List Char) : Option (Memo × Option Split) :=
  let _ := state
  let text := normalizeLine line
  if text = [] then some ([], some [])
  else
    match memoFindAux sandhiRules lex fuel [] text with
    | none => none
    | some (m, rs) => some (m, rs.head?)

/-- The vowel string of `sandhi-model.py` (`vowels = 'aāiīuūeēoōṛṝ'`). -/
def modelVowels : List Char :=
  ['a', 'ā', 'i', 'ī', 'u', 'ū', 'e', 'ē', 'o', 'ō', 'ṛ', 'ṝ']

/-- The `sandhi_map` of `sandhi-model.py`, all 28 entries in source order.
Keys and values are strings; the keys whose second component is the
two-character string `ai` or `au` can never be looked up by
`apply_vowel_sandhi` (it looks up single characters) but are kept. -/
def sandhiMapList : List ((List Char × List Char) × List Char) :=
  [((['a'], ['a']), ['ā']), ((['a'], ['ā']), ['ā']),
   ((['ā'], ['a']), ['ā']), ((['ā'], ['ā']), ['ā']),
   ((['i'], ['i']), ['ī']), ((['i'], ['ī']), ['ī']),
   ((['ī'], ['i']), ['ī']), ((['ī'], ['ī']), ['ī']),
   ((['u'], ['u']), ['ū']), ((['u'], ['ū']), ['ū']),
   ((['ū'], ['u']), ['ū']), ((['ū'], ['ū']), ['ū']),
   ((['a'], ['i']), ['e']), ((['a'], ['ī']), ['e']),
   ((['ā'], ['i']), ['e']), ((['ā'], ['ī']), ['e']),
   ((['a'], ['u']), ['o']), ((['a'], ['ū']), ['o']),
   ((['ā'], ['u']), ['o']), ((['ā'], ['ū']), ['o']),
   ((['a'], ['e']), ['a', 'i']), ((['ā'], ['e']), ['a', 'i']),
   ((['a'], ['a', 'i']), ['a', 'i']), ((['ā'], ['a', 'i']), ['a', 'i']),
   ((['a'], ['o']), ['a', 'u']), ((['ā'], ['o']), ['a', 'u']),
   ((['a'], ['a', 'u']), ['a', 'u']), ((['ā'], ['a', 'u']), ['a', 'u'])]

/-- `sandhi_map.get(key)`. -/
def sandhiMapGet (k : List Char × List Char) : Option (List Char) :=
  (sandhiMapList.find? (fun e => e.1 = k)).map (fun e => e.2)

/-- `apply_vowel_sandhi` of `sandhi-model.py`: fuse each adjacent pair whose
boundary vowels are in `sandhi_map`, skipping the absorbed word. -/
def apply_vowel_sandhi : List Word → List Word
  | [] => []
  | [w] => [w]
  | w1 :: w2 :: rest =>
    match w1.getLast?, w2.head? with
    | some l, some h =>
      if l ∈ modelVowels ∧ h ∈ modelVowels then
        match sandhiMapGet ([l], [h]) with
        | some comb => (w1.dropLast ++ comb ++ w2.tail) :: apply_vowel_sandhi rest
        | none => w1 :: apply_vowel_sandhi (w2 :: rest)
      else w1 :: apply_vowel_sandhi (w2 :: rest)
    | _, _ => w1 :: apply_vowel_sandhi (w2 :: rest)

/-- A cache entry is sound when the recursion, with the cache disabled,
reaches the cached value at some fuel. -/
def Computes (rules : List Rule) (lex : Lexicon) (t : Text) (r : List Split) : Prop :=
  ∃ fuel, findSplitsAux rules lex fuel t = some r

/-- Every entry of the memo cache is sound. -/
def MemoOK (rules : List Rule) (lex : Lexicon) (m : Memo) : Prop :=
  ∀ t r, memoLookup m t = some r → Computes rules lex t r

theorem strFind_found {pat t : Text} {pos : Nat} (h : strFind pat t = some pos) :
    pat <+: t.drop pos := by
  induction t generalizing pos with
  | nil =>
    unfold strFind at h
    split at h
    next hp => cases h; simp [hp]
    next => cases h
  | cons c rest ih =>
    unfold strFind at h
    split at h
    next hp => cases h; simpa using hp
    next =>
      rcases Option.map_eq_some'.mp h with ⟨p, hp, rfl⟩
      simpa using ih hp

theorem strFind_char_split {c : Char} {t : Text} {pos : Nat}
    (h : strFind [c] t = some pos) :
    t.take pos ++ c :: t.drop (pos + 1) = t := by
  have hpre := strFind_found h
  rcases hpre with ⟨s, hs⟩
  have hdrop : t.drop pos = c :: s := by simpa using hs.symm
  have hsucc : t.drop (pos + 1) = s := by
    have h2 : (t.drop pos).drop 1 = t.drop (pos + 1) := List.drop_drop 1 pos t
    rw [hdrop] at h2
    simpa using h2.symm
  rw [hsucc, ← hdrop, List.take_append_drop]

theorem processHyps_mono {lex : Lexicon} {recur recur' : Text → Option (List Split)}
    (hre : ∀ x v, recur x = some v → recur' x = some v) :
    ∀ hyps s, processHyps lex recur hyps = some s → processHyps lex recur' hyps = some s := by
  intro hyps
  induction hyps with
  | nil => intro s h; exact h
  | cons hd tl ih =>
    intro s h
    rcases hd with ⟨w, r⟩
    unfold processHyps at h ⊢
    split at h
    next hw =>
      rw [if_pos hw]
      cases hrec : recur r with
      | none => rw [hrec] at h; cases h
      | some rs =>
        rw [hrec] at h
        rw [hre r rs hrec]
        cases htl : processHyps lex recur tl with
        | none => rw [htl] at h; cases h
        | some ts => rw [htl] at h; rw [ih ts htl]; exact h
    next hw => rw [if_neg hw]; exact ih s h

theorem processRules_mono {lex : Lexicon} {recur recur' : Text → Option (List Split)}
    {t : Text} (hre : ∀ x v, recur x = some v → recur' x = some v) :
    ∀ rules s, processRules lex recur t rules = some s →
      processRules lex recur' t rules = some s := by
  intro rules
  induction rules with
  | nil => intro s h; exact h
  | cons rule rest ih =>
    intro s h
    cases hr : rule lex t with
    | none =>
      simp only [processRules, hr] at h ⊢
      exact ih s h
    | some hyps =>
      simp only [processRules, hr] at h ⊢
      cases hh : processHyps lex recur hyps with
      | none => rw [hh] at h; exact Option.noConfusion h
      | some s1 =>
        rw [hh] at h
        rw [processHyps_mono hre hyps s1 hh]
        cases hrest : processRules lex recur t rest with
        | none => rw [hrest] at h; exact Option.noConfusion h
        | some s2 => rw [hrest] at h; rw [ih s2 hrest]; exact h

theorem processFallback_mono {lex : Lexicon} {recur recur' : Text → Option (List Split)}
    {t : Text} (hre : ∀ x v, recur x = some v → recur' x = some v) :
    ∀ idxs s, processFallback lex recur t idxs = some s →
      processFallback lex recur' t idxs = some s := by
  intro idxs
  induction idxs with
  | nil => intro s h; exact h
  | cons i rest ih =>
    intro s h
    unfold processFallback at h ⊢
    split at h
    next hw =>
      rw [if_pos hw]
      cases hrec : recur (t.drop i) with
      | none => rw [hrec] at h; cases h
      | some ss =>
        rw [hrec] at h
        rw [hre _ ss hrec]
        cases htl : processFallback lex recur t rest with
        | none => rw [htl] at h; cases h
        | some ts => rw [htl] at h; rw [ih ts htl]; exact h
    next hw => rw [if_neg hw]; exact ih s h

theorem findSplitsAux_succ (rules : List Rule) (lex : Lexicon) :
    ∀ fuel t r, findSplitsAux rules lex fuel t = some r →
      findSplitsAux rules lex (fuel + 1) t = some r := by
  intro fuel
  induction fuel with
  | zero => intro t r h; cases h
  | succ f ih =>
    intro t r h
    unfold findSplitsAux at h ⊢
    split at h
    next ht => rw [if_pos ht]; exact h
    next hne =>
      rw [if_neg hne]
      cases h1 : processRules lex (findSplitsAux rules lex f) t rules with
      | none => rw [h1] at h; exact Option.noConfusion h
      | some s1 =>
        rw [h1] at h
        rw [processRules_mono ih rules s1 h1]
        cases h2 : processFallback lex (findSplitsAux rules lex f) t (fallbackIndices t) with
        | none => rw [h2] at h; exact Option.noConfusion h
        | some s2 => rw [h2] at h; rw [processFallback_mono ih _ s2 h2]; exact h

theorem findSplitsAux_mono (rules : List Rule) (lex : Lexicon) {f f' : Nat}
    (hle : f ≤ f') {t : Text} {r : List Split}
    (h : findSplitsAux rules lex f t = some r) :
    findSplitsAux rules lex f' t = some r := by
  induction hle with
  | refl => exact h
  | step _ ih => exact findSplitsAux_succ rules lex _ t r ih

theorem computes_unique {rules : List Rule} {lex : Lexicon} {t : Text}
    {r1 r2 : List Split} (h1 : Computes rules lex t r1) (h2 : Computes rules lex t r2) :
    r1 = r2 := by
  rcases h1 with ⟨f1, h1⟩
  rcases h2 with ⟨f2, h2⟩
  have e1 := findSplitsAux_mono rules lex (Nat.le_max_left f1 f2) h1
  have e2 := findSplitsAux_mono rules lex (Nat.le_max_right f1 f2) h2
  rw [e1] at e2
  exact Option.some_inj.mp e2

theorem processHypsM_sound {rules : List Rule} {lex : Lexicon}
    {recurM : Memo → Text → Option (Memo × List Split)}
    (HR : ∀ m t m' r, MemoOK rules lex m → recurM m t = some (m', r) →
      MemoOK rules lex m' ∧ Computes rules lex t r) :
    ∀ hyps m m' s, MemoOK rules lex m →
      processHypsM lex recurM m hyps = some (m', s) →
      MemoOK rules lex m' ∧
        ∃ f, processHyps lex (findSplitsAux rules lex f) hyps = some s := by
  intro hyps
  induction hyps with
  | nil =>
    intro m m' s hm h
    simp only [processHypsM, Option.some_inj, Prod.mk.injEq] at h
    obtain ⟨rfl, rfl⟩ := h
    exact ⟨hm, 0, rfl⟩
  | cons hd tl ih =>
    intro m m' s hm h
    rcases hd with ⟨w, r⟩
    by_cases hw : w ∈ lex
    · cases hrec : recurM m r with
      | none =>
        simp only [processHypsM, if_pos hw, hrec] at h
        exact Option.noConfusion h
      | some p1 =>
        rcases p1 with ⟨m1, rs⟩
        cases htl : processHypsM lex recurM m1 tl with
        | none =>
          simp only [processHypsM, if_pos hw, hrec, htl] at h
          exact Option.noConfusion h
        | some p2 =>
          rcases p2 with ⟨m2, ts⟩
          simp only [processHypsM, if_pos hw, hrec, htl, Option.some_inj,
            Prod.mk.injEq] at h
          obtain ⟨rfl, rfl⟩ := h
          obtain ⟨hm1ok, f1, hf1⟩ := HR m r m1 rs hm hrec
          obtain ⟨hm2ok, f2, hf2⟩ := ih m1 m2 ts hm1ok htl
          refine ⟨hm2ok, max f1 f2, ?_⟩
          have e1 : findSplitsAux rules lex (max f1 f2) r = some rs :=
            findSplitsAux_mono rules lex (Nat.le_max_left f1 f2) hf1
          have e2 : processHyps lex (findSplitsAux rules lex (max f1 f2)) tl = some ts :=
            processHyps_mono
              (fun x v hx => findSplitsAux_mono rules lex (Nat.le_max_right f1 f2) hx)
              tl ts hf2
          simp only [processHyps, if_pos hw, e1, e2]
    · simp only [processHypsM, if_neg hw] at h
      obtain ⟨hmok, f, hf⟩ := ih m m' s hm h
      exact ⟨hmok, f, by simp only [processHyps, if_neg hw]; exact hf⟩

theorem processRulesM_sound {rules : List Rule} {lex : Lexicon}
    {recurM : Memo → Text → Option (Memo × List Split)}
    (HR : ∀ m t m' r, MemoOK rules lex m → recurM m t = some (m', r) →
      MemoOK rules lex m' ∧ Computes rules lex t r) (t : Text) :
    ∀ rls m m' s, MemoOK rules lex m →
      processRulesM lex recurM t m rls = some (m', s) →
      MemoOK rules lex m' ∧
        ∃ f, processRules lex (findSplitsAux rules lex f) t rls = some s := by
  intro rls
  induction rls with
  | nil =>
    intro m m' s hm h
    simp only [processRulesM, Option.some_inj, Prod.mk.injEq] at h
    obtain ⟨rfl, rfl⟩ := h
    exact ⟨hm, 0, rfl⟩
  | cons rule rest ih =>
    intro m m' s hm h
    cases hr : rule lex t with
    | none =>
      simp only [processRulesM, hr] at h
      obtain ⟨hmok, f, hf⟩ := ih m m' s hm h
      exact ⟨hmok, f, by simp only [processRules, hr]; exact hf⟩
    | some hyps =>
      cases hh : processHypsM lex recurM m hyps with
      | none => simp only [processRulesM, hr, hh] at h; exact Option.noConfusion h
      | some p1 =>
        rcases p1 with ⟨m1, s1⟩
        cases hrest : processRulesM lex recurM t m1 rest with
        | none => simp only [processRulesM, hr, hh, hrest] at h; exact Option.noConfusion h
        | some p2 =>
          rcases p2 with ⟨m2, s2⟩
          simp only [processRulesM, hr, hh, hrest, Option.some_inj, Prod.mk.injEq] at h
          obtain ⟨rfl, rfl⟩ := h
          obtain ⟨hm1ok, f1, hf1⟩ := processHypsM_sound HR hyps m m1 s1 hm hh
          obtain ⟨hm2ok, f2, hf2⟩ := ih m1 m2 s2 hm1ok hrest
          refine ⟨hm2ok, max f1 f2, ?_⟩
          have e1 : processHyps lex (findSplitsAux rules lex (max f1 f2)) hyps = some s1 :=
            processHyps_mono
              (fun x v hx => findSplitsAux_mono rules lex (Nat.le_max_left f1 f2) hx)
              hyps s1 hf1
          have e2 : processRules lex (findSplitsAux rules lex (max f1 f2)) t rest = some s2 :=
            processRules_mono
              (fun x v hx => findSplitsAux_mono rules lex (Nat.le_max_right f1 f2) hx)
              rest s2 hf2
          simp only [processRules, hr, e1, e2]

theorem processFallbackM_sound {rules : List Rule} {lex : Lexicon}
    {recurM : Memo → Text → Option (Memo × List Split)}
    (HR : ∀ m t m' r, MemoOK rules lex m → recurM m t = some (m', r) →
      MemoOK rules lex m' ∧ Computes rules lex t r) (t : Text) :
    ∀ idxs m m' s, MemoOK rules lex m →
      processFallbackM lex recurM t m idxs = some (m', s) →
      MemoOK rules lex m' ∧
        ∃ f, processFallback lex (findSplitsAux rules lex f) t idxs = some s := by
  intro idxs
  induction idxs with
  | nil =>
    intro m m' s hm h
    simp only [processFallbackM, Option.some_inj, Prod.mk.injEq] at h
    obtain ⟨rfl, rfl⟩ := h
    exact ⟨hm, 0, rfl⟩
  | cons i rest ih =>
    intro m m' s hm h
    by_cases hw : t.take i ∈ lex
    · cases hrec : recurM m (t.drop i) with
      | none => simp only [processFallbackM, if_pos hw, hrec] at h; exact Option.noConfusion h
      | some p1 =>
        rcases p1 with ⟨m1, ss⟩
        cases htl : processFallbackM lex recurM t m1 rest with
        | none => simp only [processFallbackM, if_pos hw, hrec, htl] at h; exact Option.noConfusion h
        | some p2 =>
          rcases p2 with ⟨m2, ts⟩
          simp only [processFallbackM, if_pos hw, hrec, htl, Option.some_inj,
            Prod.mk.injEq] at h
          obtain ⟨rfl, rfl⟩ := h
          obtain ⟨hm1ok, f1, hf1⟩ := HR m (t.drop i) m1 ss hm hrec
          obtain ⟨hm2ok, f2, hf2⟩ := ih m1 m2 ts hm1ok htl
          refine ⟨hm2ok, max f1 f2, ?_⟩
          have e1 : findSplitsAux rules lex (max f1 f2) (t.drop i) = some ss :=
            findSplitsAux_mono rules lex (Nat.le_max_left f1 f2) hf1
          have e2 : processFallback lex (findSplitsAux rules lex (max f1 f2)) t rest = some ts :=
            processFallback_mono
              (fun x v hx => findSplitsAux_mono rules lex (Nat.le_max_right f1 f2) hx)
              rest ts hf2
          simp only [processFallback, if_pos hw, e1, e2]
    · simp only [processFallbackM, if_neg hw] at h
      obtain ⟨hmok, f, hf⟩ := ih m m' s hm h
      exact ⟨hmok, f, by simp only [processFallback, if_neg hw]; exact hf⟩

theorem memoFindAux_sound (rules : List Rule) (lex : Lexicon) :
    ∀ fuel m t m' r, MemoOK rules lex m →
      memoFindAux rules lex fuel m t = some (m', r) →
      MemoOK rules lex m' ∧ Computes rules lex t r := by
  intro fuel
  induction fuel with
  | zero => intro m t m' r _ h; exact Option.noConfusion h
  | succ f ih =>
    intro m t m' r hm h
    by_cases ht : t = []
    · subst ht
      simp only [memoFindAux, if_pos rfl, Option.some_inj, Prod.mk.injEq] at h
      obtain ⟨rfl, rfl⟩ := h
      exact ⟨hm, 1, rfl⟩
    · cases hl : memoLookup m t with
      | some rr =>
        simp only [memoFindAux, if_neg ht, hl, Option.some_inj, Prod.mk.injEq] at h
        obtain ⟨rfl, rfl⟩ := h
        exact ⟨hm, hm t rr hl⟩
      | none =>
        cases h1 : processRulesM lex (memoFindAux rules lex f) t m rules with
        | none => simp only [memoFindAux, if_neg ht, hl, h1] at h; exact Option.noConfusion h
        | some p1 =>
          rcases p1 with ⟨m1, s1⟩
          cases h2 : processFallbackM lex (memoFindAux rules lex f) t m1 (fallbackIndices t) with
          | none => simp only [memoFindAux, if_neg ht, hl, h1, h2] at h; exact Option.noConfusion h
          | some p2 =>
            rcases p2 with ⟨m2, s2⟩
            simp only [memoFindAux, if_neg ht, hl, h1, h2, Option.some_inj,
              Prod.mk.injEq] at h
            obtain ⟨rfl, rfl⟩ := h
            obtain ⟨hm1ok, f1, hf1⟩ := processRulesM_sound ih t rules m m1 s1 hm h1
            obtain ⟨hm2ok, f2, hf2⟩ :=
              processFallbackM_sound ih t (fallbackIndices t) m1 m2 s2 hm1ok h2
            have e1 : processRules lex (findSplitsAux rules lex (max f1 f2)) t rules = some s1 :=
              processRules_mono
                (fun x v hx => findSplitsAux_mono rules lex (Nat.le_max_left f1 f2) hx)
                rules s1 hf1
            have e2 : processFallback lex (findSplitsAux rules lex (max f1 f2)) t
                (fallbackIndices t) = some s2 :=
              processFallback_mono
                (fun x v hx => findSplitsAux_mono rules lex (Nat.le_max_right f1 f2) hx)
                (fallbackIndices t) s2 hf2
            have hcomp : Computes rules lex t ((if t ∈ lex then [[t]] else []) ++ s1 ++ s2) := by
              refine ⟨max f1 f2 + 1, ?_⟩
              simp only [findSplitsAux, if_neg ht, e1, e2]
            refine ⟨?_, hcomp⟩
            intro u ru hu
            simp only [memoLookup] at hu
            split at hu
            next heq =>
              obtain rfl := heq
              obtain rfl := Option.some_inj.mp hu
              exact hcomp
            next => exact hm2ok u ru hu

theorem processHyps_containment {lex : Lexicon} {recur : Text → Option (List Split)}
    (HC : ∀ x v, recur x = some v → ∀ s ∈ v, ∀ w ∈ s, w ∈ lex) :
    ∀ hyps s, processHyps lex recur hyps = some s → ∀ sp ∈ s, ∀ w ∈ sp, w ∈ lex := by
  intro hyps
  induction hyps with
  | nil =>
    intro s h sp hsp
    obtain rfl := Option.some_inj.mp h.symm
    cases hsp
  | cons hd tl ih =>
    intro s h sp hsp w hw
    rcases hd with ⟨wd, r⟩
    by_cases hwd : wd ∈ lex
    · cases hrec : recur r with
      | none => simp only [processHyps, if_pos hwd, hrec] at h; exact Option.noConfusion h
      | some rs =>
        cases htl : processHyps lex recur tl with
        | none =>
          simp only [processHyps, if_pos hwd, hrec, htl] at h
          exact Option.noConfusion h
        | some ts =>
          simp only [processHyps, if_pos hwd, hrec, htl, Option.some_inj] at h
          subst h
          rcases List.mem_append.mp hsp with hin | hin
          · rcases List.mem_map.mp hin with ⟨s0, hs0, rfl⟩
            rcases List.mem_cons.mp hw with rfl | hw0
            · exact hwd
            · exact HC r rs hrec s0 hs0 w hw0
          · exact ih ts htl sp hin w hw
    · simp only [processHyps, if_neg hwd] at h
      exact ih s h sp hsp w hw

theorem processRules_containment {lex : Lexicon} {recur : Text → Option (List Split)}
    {t : Text} (HC : ∀ x v, recur x = some v → ∀ s ∈ v, ∀ w ∈ s, w ∈ lex) :
    ∀ rls s, processRules lex recur t rls = some s → ∀ sp ∈ s, ∀ w ∈ sp, w ∈ lex := by
  intro rls
  induction rls with
  | nil =>
    intro s h sp hsp
    obtain rfl := Option.some_inj.mp h.symm
    cases hsp
  | cons rule rest ih =>
    intro s h sp hsp w hw
    cases hr : rule lex t with
    | none =>
      simp only [processRules, hr] at h
      exact ih s h sp hsp w hw
    | some hyps =>
      cases hh : processHyps lex recur hyps with
      | none => simp only [processRules, hr, hh] at h; exact Option.noConfusion h
      | some s1 =>
        cases hrest : processRules lex recur t rest with
        | none =>
          simp only [processRules, hr, hh, hrest] at h
          exact Option.noConfusion h
        | some s2 =>
          simp only [processRules, hr, hh, hrest, Option.some_inj] at h
          subst h
          rcases List.mem_append.mp hsp with hin | hin
          · exact processHyps_containment HC hyps s1 hh sp hin w hw
          · exact ih s2 hrest sp hin w hw

theorem processFallback_containment {lex : Lexicon} {recur : Text → Option (List Split)}
    {t : Text} (HC : ∀ x v, recur x = some v → ∀ s ∈ v, ∀ w ∈ s, w ∈ lex) :
    ∀ idxs s, processFallback lex recur t idxs = some s → ∀ sp ∈ s, ∀ w ∈ sp, w ∈ lex := by
  intro idxs
  induction idxs with
  | nil =>
    intro s h sp hsp
    obtain rfl := Option.some_inj.mp h.symm
    cases hsp
  | cons i rest ih =>
    intro s h sp hsp w hw
    by_cases hwd : t.take i ∈ lex
    · cases hrec : recur (t.drop i) with
      | none =>
        simp only [processFallback, if_pos hwd, hrec] at h
        exact Option.noConfusion h
      | some ss =>
        cases htl : processFallback lex recur t rest with
        | none =>
          simp only [processFallback, if_pos hwd, hrec, htl] at h
          exact Option.noConfusion h
        | some ts =>
          simp only [processFallback, if_pos hwd, hrec, htl, Option.some_inj] at h
          subst h
          rcases List.mem_append.mp hsp with hin | hin
          · rcases List.mem_map.mp hin with ⟨s0, hs0, rfl⟩
            rcases List.mem_cons.mp hw with rfl | hw0
            · exact hwd
            · exact HC (t.drop i) ss hrec s0 hs0 w hw0
          · exact ih ts htl sp hin w hw
    · simp only [processFallback, if_neg hwd] at h
      exact ih s h sp hsp w hw

theorem findSplitsAux_containment (rules : List Rule) (lex : Lexicon) :
    ∀ fuel t r, findSplitsAux rules lex fuel t = some r →
      ∀ sp ∈ r, ∀ w ∈ sp, w ∈ lex := by
  intro fuel
  induction fuel with
  | zero => intro t r h; exact Option.noConfusion h
  | succ f ih =>
    intro t r h sp hsp w hw
    by_cases ht : t = []
    · subst ht
      rw [show findSplitsAux rules lex (f + 1) ([] : Text) = some [[]] from rfl] at h
      obtain rfl := Option.some_inj.mp h
      rcases List.mem_singleton.mp hsp with rfl
      cases hw
    · cases h1 : processRules lex (findSplitsAux rules lex f) t rules with
      | none => simp only [findSplitsAux, if_neg ht, h1] at h; exact Option.noConfusion h
      | some s1 =>
        cases h2 : processFallback lex (findSplitsAux rules lex f) t (fallbackIndices t) with
        | none =>
          simp only [findSplitsAux, if_neg ht, h1, h2] at h
          exact Option.noConfusion h
        | some s2 =>
          simp only [findSplitsAux, if_neg ht, h1, h2, Option.some_inj] at h
          subst h
          have HC : ∀ x v, findSplitsAux rules lex f x = some v →
              ∀ s0 ∈ v, ∀ w0 ∈ s0, w0 ∈ lex := fun x v hx => ih x v hx
          rcases List.mem_append.mp hsp with hin | hin
          · rcases List.mem_append.mp hin with hin0 | hin1
            · by_cases hl : t ∈ lex
              · rw [if_pos hl] at hin0
                rcases List.mem_singleton.mp hin0 with rfl
                rcases List.mem_singleton.mp hw with rfl
                exact hl
              · rw [if_neg hl] at hin0
                cases hin0
            · exact processRules_containment HC rules s1 h1 sp hin1 w hw
          · exact processFallback_containment HC (fallbackIndices t) s2 h2 sp hin w hw

theorem processHyps_congr {lex : Lexicon} {recur recur' : Text → Option (List Split)}
    (he : ∀ x, recur x = recur' x) :
    ∀ hyps, processHyps lex recur hyps = processHyps lex recur' hyps := by
  intro hyps
  induction hyps with
  | nil => rfl
  | cons hd tl ih =>
    rcases hd with ⟨w, r⟩
    simp only [processHyps, he, ih]

theorem processRules_congr {lex : Lexicon} {recur recur' : Text → Option (List Split)}
    {t : Text} (he : ∀ x, recur x = recur' x) :
    ∀ rls, processRules lex recur t rls = processRules lex recur' t rls := by
  intro rls
  induction rls with
  | nil => rfl
  | cons rule rest ih =>
    simp only [processRules, processHyps_congr he, ih]

theorem processFallback_congr {lex : Lexicon} {recur recur' : Text → Option (List Split)}
    {t : Text} (he : ∀ x, recur x = recur' x) :
    ∀ idxs, processFallback lex recur t idxs = processFallback lex recur' t idxs := by
  intro idxs
  induction idxs with
  | nil => rfl
  | cons i rest ih =>
    simp only [processFallback, he, ih]

theorem processRules_removeNone {lex : Lexicon} {recur : Text → Option (List Split)}
    {t : Text} {bad : Rule} (hb : bad lex t = none) :
    ∀ rules1 rules2 : List Rule,
      processRules lex recur t (rules1 ++ bad :: rules2) =
        processRules lex recur t (rules1 ++ rules2) := by
  intro rules1 rules2
  induction rules1 with
  | nil => simp only [List.nil_append, processRules, hb]
  | cons rule rest ih =>
    show processRules lex recur t (rule :: (rest ++ bad :: rules2)) =
      processRules lex recur t (rule :: (rest ++ rules2))
    simp only [processRules, ih]

theorem findSplitsAux_removeNone {lex : Lexicon} {bad : Rule}
    (hb : ∀ l u, bad l u = none) (rules1 rules2 : List Rule) :
    ∀ fuel t, findSplitsAux (rules1 ++ bad :: rules2) lex fuel t =
      findSplitsAux (rules1 ++ rules2) lex fuel t := by
  intro fuel
  induction fuel with
  | zero => intro t; rfl
  | succ f ih =>
    intro t
    by_cases ht : t = []
    · subst ht
      rfl
    · simp only [findSplitsAux, if_neg ht]
      rw [processRules_congr ih (rules1 ++ bad :: rules2),
        processRules_removeNone (hb lex t) rules1 rules2,
        processFallback_congr ih (fallbackIndices t)]

theorem processHypsM_empty_lex {recurM : Memo → Text → Option (Memo × List Split)} :
    ∀ hyps m, processHypsM [] recurM m hyps = some (m, []) := by
  intro hyps
  induction hyps with
  | nil => intro m; rfl
  | cons hd tl ih =>
    intro m
    rcases hd with ⟨w, r⟩
    simp only [processHypsM]
    rw [if_neg (List.not_mem_nil w)]
    exact ih m

theorem processRulesM_empty_lex {recurM : Memo → Text → Option (Memo × List Split)}
    {t : Text} : ∀ rls m, processRulesM [] recurM t m rls = some (m, []) := by
  intro rls
  induction rls with
  | nil => intro m; rfl
  | cons rule rest ih =>
    intro m
    cases hr : rule [] t with
    | none => simp only [processRulesM, hr]; exact ih m
    | some hyps =>
      simp only [processRulesM, hr, processHypsM_empty_lex, ih, List.nil_append]

theorem processFallbackM_empty_lex {recurM : Memo → Text → Option (Memo × List Split)}
    {t : Text} : ∀ idxs m, processFallbackM [] recurM t m idxs = some (m, []) := by
  intro idxs
  induction idxs with
  | nil => intro m; rfl
  | cons i rest ih =>
    intro m
    simp only [processFallbackM]
    rw [if_neg (List.not_mem_nil (t.take i))]
    exact ih m

theorem memoFindAux_empty_lex (rules : List Rule) (fuel : Nat) {t : Text}
    (ht : t ≠ []) :
    memoFindAux rules [] (fuel + 1) [] t = some ([(t, [])], []) := by
  have hl : memoLookup [] t = none := rfl
  simp only [memoFindAux, if_neg ht, hl, processRulesM_empty_lex,
    processFallbackM_empty_lex]
  rw [if_neg (List.not_mem_nil t)]
  rfl

theorem normalizeLine_of_whitespace {line : List Char}
    (h : ∀ c ∈ line, isPyWhitespace c) : normalizeLine line = [] := by
  unfold normalizeLine pyStrip
  have h2 : (line.filter (fun c => ¬(c = ' '))).dropWhile isPyWhitespace = [] :=
    List.dropWhile_eq_nil_iff.mpr (fun x hx => h x (List.mem_filter.mp hx).1)
  rw [h2]
  rfl

theorem mem_fallbackIndices {t : Text} {i : Nat} :
    i ∈ fallbackIndices t ↔ 1 ≤ i ∧ i < min t.length 15 := by
  unfold fallbackIndices
  rw [List.mem_range'_1]
  omega

/-- Claim C2 (confirmed): every word of every split returned by the search
`_find_splits` (run as written, with memoization, from a fresh cache) is a
member of the lexicon. -/
theorem c2_lexicon_containment :
    ∀ (lex : Lexicon) (fuel : Nat) (t : Text) (m : Memo) (r : List Split),
      find_splits_memo lex fuel [] t = some (m, r) →
      ∀ s ∈ r, ∀ w ∈ s, w ∈ lex := by
  intro lex fuel t m r h s hs w hw
  have hok : MemoOK sandhiRules lex [] := fun u ru hu => Option.noConfusion hu
  obtain ⟨-, f, hf⟩ := memoFindAux_sound sandhiRules lex fuel [] t m r hok h
  exact findSplitsAux_containment sandhiRules lex f t r hf s hs w hw

/-- Witness for C2: on the lexicon `{"a"}` and text `"aa"` the search
succeeds and the first word of its split is in the lexicon. -/
theorem c2_lexicon_containment_witness :
    find_splits_memo [['a']] 3 [] ['a', 'a'] =
      some ([(['a', 'a'], [[['a'], ['a']]]), (['a'], [[['a']]])], [[['a'], ['a']]]) ∧
    (['a'] : Word) ∈ ([['a']] : Lexicon) :=
  ⟨rfl,
   c2_lexicon_containment [['a']] 3 ['a', 'a']
     [(['a', 'a'], [[['a'], ['a']]]), (['a'], [[['a']]])] [[['a'], ['a']]] rfl
     [['a'], ['a']] (by decide) ['a'] (by decide)⟩

/-- Claim C5 (confirmed): whenever both the memoized search (from a fresh
cache) and the cache-disabled search terminate on a text, they return
exactly the same list of splits — caching never changes observable results. -/
theorem c5_memo_transparency :
    ∀ (lex : Lexicon) (f1 f2 : Nat) (t : Text) (m : Memo) (rm rp : List Split),
      find_splits_memo lex f1 [] t = some (m, rm) →
      find_splits lex f2 t = some rp →
      rm = rp := by
  intro lex f1 f2 t m rm rp h1 h2
  have hok : MemoOK sandhiRules lex [] := fun u ru hu => Option.noConfusion hu
  obtain ⟨-, hc⟩ := memoFindAux_sound sandhiRules lex f1 [] t m rm hok h1
  exact computes_unique hc ⟨f2, h2⟩

/-- Witness for C5: on the lexicon `{"a"}` and text `"aa"` both searches
terminate and agree. -/
theorem c5_memo_transparency_witness :
    find_splits_memo [['a']] 3 [] ['a', 'a'] =
      some ([(['a', 'a'], [[['a'], ['a']]]), (['a'], [[['a']]])], [[['a'], ['a']]]) ∧
    find_splits [['a']] 3 ['a', 'a'] = some [[['a'], ['a']]] ∧
    ([[['a'], ['a']]] : List Split) = [[['a'], ['a']]] :=
  ⟨rfl, rfl,
   c5_memo_transparency [['a']] 3 3 ['a', 'a']
     [(['a', 'a'], [[['a'], ['a']]]), (['a'], [[['a']]])]
     [[['a'], ['a']]] [[['a'], ['a']]] rfl rfl⟩

/-- Claim C4 (confirmed): `reverse_sandhi` is a pure function of the line,
the lexicon and the rule set: with the reverser's surviving `self.memo`
modelled as explicit incoming state, the output is the same for any two
incoming states (the method begins by resetting the cache), and equals the
stateless `reverse_sandhi`. -/
theorem c4_determinism :
    ∀ (lex : Lexicon) (fuel : Nat) (line : List Char) (state1 state2 : Memo),
      (reverse_sandhi_stateful lex fuel state1 line).map (fun p => p.2) =
        (reverse_sandhi_stateful lex fuel state2 line).map (fun p => p.2) ∧
      (reverse_sandhi_stateful lex fuel state1 line).map (fun p => p.2) =
        reverse_sandhi lex fuel line := by
  intro lex fuel line s1 s2
  refine ⟨rfl, ?_⟩
  by_cases ht : normalizeLine line = []
  · simp only [reverse_sandhi_stateful, reverse_sandhi, if_pos ht, Option.map_some']
  · simp only [reverse_sandhi_stateful, reverse_sandhi, if_neg ht]
    cases hm : memoFindAux sandhiRules lex fuel [] (normalizeLine line) with
    | none => rfl
    | some p => rcases p with ⟨m, rs⟩; rfl

/-- Claim C7 (confirmed): a raising rule is isolated.  At any search node a
rule whose evaluation raises contributes nothing and the remaining rules
and the fallback still run (node-local statement on the rule loop), and a
rule that always raises leaves the whole search's result unchanged, i.e.
equal to the union of the non-failing hypothesis sources. -/
theorem c7_rule_isolation :
    ∀ (lex : Lexicon) (bad : Rule) (rules1 rules2 : List Rule) (fuel : Nat)
      (t : Text) (recur : Text → Option (List Split)),
      (bad lex t = none →
        processRules lex recur t (rules1 ++ bad :: rules2) =
          processRules lex recur t (rules1 ++ rules2)) ∧
      ((∀ l u, bad l u = none) →
        findSplitsAux (rules1 ++ bad :: rules2) lex fuel t =
          findSplitsAux (rules1 ++ rules2) lex fuel t) := by
  intro lex bad r1 r2 fuel t recur
  exact ⟨fun hb => processRules_removeNone hb r1 r2,
    fun hb => findSplitsAux_removeNone hb r1 r2 fuel t⟩

/-- Witness for C7: inserting an always-raising rule in front of the
engine's own rule set does not change the search on a concrete input. -/
theorem c7_rule_isolation_witness :
    findSplitsAux ([] ++ (fun _ _ => none) :: sandhiRules) [['a']] 3 ['a', 'a'] =
      findSplitsAux ([] ++ sandhiRules) [['a']] 3 ['a', 'a'] :=
  (c7_rule_isolation [['a']] (fun _ _ => none) [] sandhiRules 3 ['a', 'a']
    (fun _ => none)).2 (fun _ _ => rfl)

/-- Claim C8 (confirmed): with the empty lexicon, every line whose stripped
text is non-empty gets `None` (no split found) — without crashing, and
already at recursion depth 1, since no hypothesis can pass the lexicon
filter — while an empty (stripped) line still gets the empty split. -/
theorem c8_empty_lexicon :
    ∀ (fuel : Nat) (line : List Char),
      (normalizeLine line ≠ [] → reverse_sandhi [] (fuel + 1) line = some none) ∧
      (normalizeLine line = [] → reverse_sandhi [] fuel line = some (some [])) := by
  intro fuel line
  constructor
  · intro hne
    simp only [reverse_sandhi, if_neg hne]
    rw [memoFindAux_empty_lex sandhiRules fuel hne]
    rfl
  · intro hnil
    simp only [reverse_sandhi, if_pos hnil]

/-- Witness for C8: the empty lexicon yields `None` on `"ab"` and the empty
split on a blank line. -/
theorem c8_empty_lexicon_witness :
    reverse_sandhi [] 1 ['a', 'b'] = some none ∧
    reverse_sandhi [] 0 [' '] = some (some []) :=
  ⟨(c8_empty_lexicon 0 ['a', 'b']).1 (by decide),
   (c8_empty_lexicon 0 [' ']).2 (by decide)⟩

/-- Claim C10 (confirmed): an all-whitespace line returns the successful
empty split (for every fuel, including zero, so the search is not invoked);
a line whose stripped text is non-empty and admits no decomposition returns
`None`; and the two outcomes are distinct values. -/
theorem c10_interface :
    ∀ (lex : Lexicon) (fuel : Nat) (line : List Char),
      ((∀ c ∈ line, isPyWhitespace c) → reverse_sandhi lex fuel line = some (some [])) ∧
      (∀ m : Memo, normalizeLine line ≠ [] →
        find_splits_memo lex fuel [] (normalizeLine line) = some (m, []) →
        reverse_sandhi lex fuel line = some none) ∧
      (some (some ([] : Split)) : Option (Option Split)) ≠ some none := by
  intro lex fuel line
  refine ⟨?_, ?_, by simp⟩
  · intro hws
    simp only [reverse_sandhi, if_pos (normalizeLine_of_whitespace hws)]
  · intro m hne hm
    have hm' : memoFindAux sandhiRules lex fuel [] (normalizeLine line) = some (m, []) := hm
    simp only [reverse_sandhi, if_neg hne, hm']
    rfl

/-- Witness for C10: a tab-only line and an undecomposable line, on
the lexicon `{"q"}`. -/
theorem c10_interface_witness :
    reverse_sandhi [['q']] 2 ['\t'] = some (some []) ∧
    reverse_sandhi [['q']] 2 ['a', 'b'] = some none :=
  ⟨(c10_interface [['q']] 2 ['\t']).1 (by decide),
   (c10_interface [['q']] 2 ['a', 'b']).2.1 [(['a', 'b'], [])] (by decide) rfl⟩

/-- Claim C9 (corrected), counterexample: a 15-character lexicon word is
recognized as a proper raw prefix of a longer text — not only by the
whole-match step — because the consonant-cluster rule splits `…tt…` into
the untouched prefix and suffix.  This refutes the claim's final clause. -/
theorem c9_long_word_counterexample :
    (['a','a','a','a','a','a','a','a','a','a','a','a','a','a','t'] : Word).length = 15 ∧
    (['a','a','a','a','a','a','a','a','a','a','a','a','a','a','t','t'] : Text) =
      ['a','a','a','a','a','a','a','a','a','a','a','a','a','a','t'] ++ ['t'] ∧
    (['a','a','a','a','a','a','a','a','a','a','a','a','a','a','t','t'] : Text) ≠
      ['a','a','a','a','a','a','a','a','a','a','a','a','a','a','t'] ∧
    reverse_sandhi
      [['a','a','a','a','a','a','a','a','a','a','a','a','a','a','t'], ['t']] 5
      ['a','a','a','a','a','a','a','a','a','a','a','a','a','a','t','t'] =
      some (some [['a','a','a','a','a','a','a','a','a','a','a','a','a','a','t'], ['t']]) :=
  ⟨rfl, rfl, by decide, rfl⟩

/-- Claim C9 (corrected), amended: the raw-prefix fallback considers
exactly the prefix lengths `1` through `min(len(text), 15) - 1` — so never
more than 14 characters and never the full text — but a leading lexicon
word of length 15 or more can still be recognized as a proper prefix by a
rule hypothesis (the consonant-cluster rule), not only by whole-match. -/
theorem c9_fallback_bound :
    ∀ (t : Text) (i : Nat),
      (i ∈ fallbackIndices t → 1 ≤ i ∧ i ≤ 14 ∧ i < t.length) ∧
      (1 ≤ i → i < min t.length 15 → i ∈ fallbackIndices t) := by
  intro t i
  constructor
  · intro h
    have := mem_fallbackIndices.mp h
    omega
  · intro h1 h2
    exact mem_fallbackIndices.mpr ⟨h1, h2⟩

/-- Witness for C9's amended bound, on a five-character text and prefix
length 3. -/
theorem c9_fallback_bound_witness :
    1 ≤ 3 ∧ 3 ≤ 14 ∧ 3 < (['a', 'b', 'c', 'd', 'e'] : Text).length :=
  (c9_fallback_bound ['a', 'b', 'c', 'd', 'e'] 3).1 (by decide)

/-- Claim C3 (corrected), counterexample: on the lexicon
`{"taḥ", "aa", "x", "to", "'ax"}` and input `to'ax`, `_find_splits` finds
both a three-word split (via the avagraha rule, enumerated first) and a
two-word split (via the raw-prefix fallback), and `reverse_sandhi` returns
the three-word one — not a split with fewest total words. -/
theorem c3_tiebreak_counterexample :
    find_splits [['t','a','ḥ'], ['a','a'], ['x'], ['t','o'], [apos,'a','x']] 10
      ['t','o',apos,'a','x'] =
      some [[['t','a','ḥ'], ['a','a'], ['x']], [['t','o'], [apos,'a','x']]] ∧
    reverse_sandhi [['t','a','ḥ'], ['a','a'], ['x'], ['t','o'], [apos,'a','x']] 10
      ['t','o',apos,'a','x'] = some (some [['t','a','ḥ'], ['a','a'], ['x']]) ∧
    ([['t','o'], [apos,'a','x']] : Split).length <
      ([['t','a','ḥ'], ['a','a'], ['x']] : Split).length :=
  ⟨rfl, rfl, by decide⟩

/-- Claim C3 (corrected), amended: `reverse_sandhi` returns the first split
in `_find_splits`'s enumeration order (whole-match hypothesis first, then
rule hypotheses in rule-set order, then the raw-prefix fallback), which
need not minimize the word count; in particular, when the stripped text is
itself a lexicon word the returned split is the single word `[text]`. -/
theorem c3_first_enumerated :
    ∀ (lex : Lexicon) (fuel : Nat) (line : List Char) (m : Memo) (splits : List Split),
      normalizeLine line ≠ [] →
      find_splits_memo lex fuel [] (normalizeLine line) = some (m, splits) →
      reverse_sandhi lex fuel line = some splits.head? ∧
        (normalizeLine line ∈ lex → splits.head? = some [normalizeLine line]) := by
  intro lex fuel line m splits hne hm
  have hm' : memoFindAux sandhiRules lex fuel [] (normalizeLine line) = some (m, splits) := hm
  constructor
  · simp only [reverse_sandhi, if_neg hne, hm']
  · intro hlex
    cases fuel with
    | zero => exact Option.noConfusion hm'
    | succ f =>
      cases h1 : processRulesM lex (memoFindAux sandhiRules lex f)
          (normalizeLine line) [] sandhiRules with
      | none =>
        simp only [memoFindAux, if_neg hne, memoLookup, h1] at hm'
        exact Option.noConfusion hm'
      | some p1 =>
        rcases p1 with ⟨m1, s1⟩
        cases h2 : processFallbackM lex (memoFindAux sandhiRules lex f)
            (normalizeLine line) m1 (fallbackIndices (normalizeLine line)) with
        | none =>
          simp only [memoFindAux, if_neg hne, memoLookup, h1, h2] at hm'
          exact Option.noConfusion hm'
        | some p2 =>
          rcases p2 with ⟨m2, s2⟩
          simp only [memoFindAux, if_neg hne, memoLookup, h1, h2, if_pos hlex,
            Option.some_inj, Prod.mk.injEq] at hm'
          obtain ⟨-, hsp⟩ := hm'
          rw [← hsp]
          rfl

/-- Witness for C3's amended statement: a line that is itself a lexicon
word is returned as the one-word split. -/
theorem c3_first_enumerated_witness :
    reverse_sandhi [['a', 'b']] 3 ['a', 'b'] = some (some [['a', 'b']]) := by
  have h := c3_first_enumerated [['a', 'b']] 3 ['a', 'b']
    [(['a', 'b'], [[['a', 'b']]])] [[['a', 'b']]] (by decide) rfl
  rw [h.1]
  rw [h.2 (by decide)]
  rfl

/-- Claim C1 (corrected), counterexample: on the lexicon `{"ba", "aā"}` and
input `bxā` the engine returns the split `ba | aā` (via the dīrgha rule at
a split position away from the long vowel), but re-applying the forward
vowel sandhi `a + a → ā` of `apply_vowel_sandhi` to the adjacent words
yields `bāā`, not the original input — the round trip fails. -/
theorem c1_roundtrip_counterexample :
    reverse_sandhi [['b','a'], ['a','ā']] 10 ['b','x','ā'] =
      some (some [['b','a'], ['a','ā']]) ∧
    apply_vowel_sandhi [['b','a'], ['a','ā']] = [['b','ā','ā']] ∧
    (['b','ā','ā'] : Word) ≠ ['b','x','ā'] :=
  ⟨rfl, rfl, by decide⟩

/-- Claim C6 (corrected), counterexample: `_reverse_guṇa_sandhi` proposes
the hypothesis `("ta", "i")` on the text `te` over the lexicon `{"i"}`
although `ta` is not a lexicon member — rules do not validate the
reconstructed first word against the lexicon. -/
theorem c6_rule_validation_counterexample :
    (['t','a'], ['i']) ∈ reverse_guna_sandhi [['i']] ['t','e'] ∧
    (['t','a'] : Word) ∉ ([['i']] : Lexicon) :=
  ⟨by decide, by decide⟩

theorem avs_pair_e (w1 r : Text) :
    apply_vowel_sandhi [w1 ++ ['a'], 'i' :: r] = [w1 ++ 'e' :: r] := by
  simp only [apply_vowel_sandhi, List.getLast?_concat, List.head?_cons]
  rw [if_pos (by decide : ('a' ∈ modelVowels ∧ 'i' ∈ modelVowels))]
  simp only [show sandhiMapGet (['a'], ['i']) = some ['e'] from rfl,
    List.dropLast_concat, List.tail_cons, List.append_assoc, List.singleton_append]

theorem avs_pair_o (w1 r : Text) :
    apply_vowel_sandhi [w1 ++ ['a'], 'u' :: r] = [w1 ++ 'o' :: r] := by
  simp only [apply_vowel_sandhi, List.getLast?_concat, List.head?_cons]
  rw [if_pos (by decide : ('a' ∈ modelVowels ∧ 'u' ∈ modelVowels))]
  simp only [show sandhiMapGet (['a'], ['u']) = some ['o'] from rfl,
    List.dropLast_concat, List.tail_cons, List.append_assoc, List.singleton_append]

/-- Claim C1 (corrected), amended: the guṇa rule is round-trip sound —
for every hypothesis `(first_word, remainder)` it proposes, re-applying the
forward vowel sandhi (`a+i → e`, `a+u → o` of `apply_vowel_sandhi`) to the
pair reproduces the matched text exactly; the dīrgha rule does not have
this property (see the counterexample), so the engine's splits need not
round-trip. -/
theorem c1_guna_roundtrip :
    ∀ (lex : Lexicon) (t : Text) (w : Word) (r : Text),
      (w, r) ∈ reverse_guna_sandhi lex t → apply_vowel_sandhi [w, r] = [t] := by
  intro lex t w r h
  unfold reverse_guna_sandhi at h
  rcases List.mem_append.mp h with hin | hin
  · cases hfind : strFind ['e'] t with
    | none => simp only [hfind] at hin; exact absurd hin (List.not_mem_nil _)
    | some pos =>
      simp only [hfind] at hin
      split at hin
      next =>
        split at hin
        next =>
          rcases List.mem_singleton.mp hin with heq
          obtain ⟨rfl, rfl⟩ := Prod.mk.injEq _ _ _ _ ▸ heq
          rw [avs_pair_e, strFind_char_split hfind]
        next => exact absurd hin (List.not_mem_nil _)
      next => exact absurd hin (List.not_mem_nil _)
  · cases hfind : strFind ['o'] t with
    | none => simp only [hfind] at hin; exact absurd hin (List.not_mem_nil _)
    | some pos =>
      simp only [hfind] at hin
      split at hin
      next =>
        split at hin
        next =>
          rcases List.mem_singleton.mp hin with heq
          obtain ⟨rfl, rfl⟩ := Prod.mk.injEq _ _ _ _ ▸ heq
          rw [avs_pair_o, strFind_char_split hfind]
        next => exact absurd hin (List.not_mem_nil _)
      next => exact absurd hin (List.not_mem_nil _)

/-- Witness for C1's amended statement: on the lexicon `{"ta", "i"}` and
text `te`, the guṇa hypothesis `("ta", "i")` re-fuses to `te`. -/
theorem c1_guna_roundtrip_witness :
    (['t','a'], ['i']) ∈ reverse_guna_sandhi [['t','a'], ['i']] ['t','e'] ∧
    apply_vowel_sandhi [['t','a'], ['i']] = [['t','e']] :=
  ⟨by decide,
   c1_guna_roundtrip [['t','a'], ['i']] ['t','e'] ['t','a'] ['i'] (by decide)⟩

theorem yanHalf_mem_lex {lex : Lexicon} {t : Text} {sv rp : Char} {w : Word} {r : Text}
    (h : (w, r) ∈ yanHalf lex t sv rp) : w ∈ lex := by
  unfold yanHalf at h
  rcases List.mem_filterMap.mp h with ⟨i, hi, heq⟩
  cases ht1 : t[i]? with
  | none => simp only [ht1] at heq; exact Option.noConfusion heq
  | some c =>
    cases ht2 : t[i + 1]? with
    | none => simp only [ht1, ht2] at heq; exact Option.noConfusion heq
    | some c1 =>
      simp only [ht1, ht2] at heq
      split at heq
      next =>
        split at heq
        next hlex =>
          obtain ⟨rfl, rfl⟩ := Prod.mk.injEq _ _ _ _ ▸ Option.some_inj.mp heq
          exact hlex
        next => exact Option.noConfusion heq
      next => exact Option.noConfusion heq

theorem dirgha_mem_lex {lex : Lexicon} {t : Text} {w : Word} {r : Text}
    (h : (w, r) ∈ reverse_dirgha_sandhi lex t) : w ∈ lex := by
  unfold reverse_dirgha_sandhi at h
  rcases List.mem_flatMap.mp h with ⟨p, hp, hmem⟩
  cases hfind : strFind [p.1] t with
  | none => simp only [hfind] at hmem; exact absurd hmem (List.not_mem_nil _)
  | some pos =>
    simp only [hfind] at hmem
    split at hmem
    next =>
      rcases List.mem_filterMap.mp hmem with ⟨sp, hsp, heq⟩
      split at heq
      next =>
        split at heq
        next hlex =>
          obtain ⟨rfl, rfl⟩ := Prod.mk.injEq _ _ _ _ ▸ Option.some_inj.mp heq
          exact hlex
        next => exact Option.noConfusion heq
      next => exact Option.noConfusion heq
    next => exact absurd hmem (List.not_mem_nil _)

theorem visarga_voiced_mem_lex {lex : Lexicon} {t : Text} {w : Word} {r : Text}
    (h : (w, r) ∈ reverse_visarga_before_voiced lex t) : w ∈ lex := by
  unfold reverse_visarga_before_voiced at h
  rcases List.mem_append.mp h with hin | hin
  · rcases List.mem_filterMap.mp hin with ⟨i, hi, heq⟩
    cases ht1 : t[i]? with
    | none => simp only [ht1] at heq; exact Option.noConfusion heq
    | some c =>
      cases ht2 : t[i + 1]? with
      | none => simp only [ht1, ht2] at heq; exact Option.noConfusion heq
      | some c1 =>
        cases ht0 : t[i - 1]? with
        | none => simp only [ht1, ht2, ht0] at heq; exact Option.noConfusion heq
        | some c0 =>
          simp only [ht1, ht2, ht0] at heq
          split at heq
          next =>
            split at heq
            next hlex =>
              obtain ⟨rfl, rfl⟩ := Prod.mk.injEq _ _ _ _ ▸ Option.some_inj.mp heq
              exact hlex
            next => exact Option.noConfusion heq
          next => exact Option.noConfusion heq
  · rcases List.mem_filterMap.mp hin with ⟨i, hi, heq⟩
    cases ht1 : t[i]? with
    | none => simp only [ht1] at heq; exact Option.noConfusion heq
    | some c =>
      cases ht2 : t[i + 1]? with
      | none => simp only [ht1, ht2] at heq; exact Option.noConfusion heq
      | some c1 =>
        simp only [ht1, ht2] at heq
        split at heq
        next =>
          split at heq
          next hlex =>
            obtain ⟨rfl, rfl⟩ := Prod.mk.injEq _ _ _ _ ▸ Option.some_inj.mp heq
            exact hlex
          next => exact Option.noConfusion heq
        next => exact Option.noConfusion heq

theorem visarga_unvoiced_mem_lex {lex : Lexicon} {t : Text} {w : Word} {r : Text}
    (h : (w, r) ∈ reverse_visarga_before_unvoiced lex t) : w ∈ lex := by
  unfold reverse_visarga_before_unvoiced at h
  rcases List.mem_flatMap.mp h with ⟨sib, hsib, hmem⟩
  rcases List.mem_filterMap.mp hmem with ⟨i, hi, heq⟩
  cases ht1 : t[i]? with
  | none => simp only [ht1] at heq; exact Option.noConfusion heq
  | some c =>
    simp only [ht1] at heq
    split at heq
    next =>
      split at heq
      next hlex =>
        obtain ⟨rfl, rfl⟩ := Prod.mk.injEq _ _ _ _ ▸ Option.some_inj.mp heq
        exact hlex
      next => exact Option.noConfusion heq
    next => exact Option.noConfusion heq

theorem clusters_mem_lex {lex : Lexicon} {t : Text} {w : Word} {r : Text}
    (h : (w, r) ∈ reverse_consonant_clusters lex t) : w ∈ lex := by
  unfold reverse_consonant_clusters at h
  rcases List.mem_flatMap.mp h with ⟨d, hd, hmem⟩
  cases hfind : strFind d t with
  | none => simp only [hfind] at hmem; exact absurd hmem (List.not_mem_nil _)
  | some pos =>
    simp only [hfind] at hmem
    split at hmem
    next =>
      split at hmem
      next hlex =>
        rcases List.mem_singleton.mp hmem with heq
        obtain ⟨rfl, rfl⟩ := Prod.mk.injEq _ _ _ _ ▸ heq
        exact hlex
      next => exact absurd hmem (List.not_mem_nil _)
    next => exact absurd hmem (List.not_mem_nil _)

/-- Claim C6 (corrected), amended: not every rule validates its
reconstructed first word against the lexicon (avagraha, vṛddhi and guṇa do
not — see the counterexample; the engine's `_find_splits` filters every
hypothesis by membership before use instead), but the dīrgha, yaṇ, both
visarga rules and the consonant-cluster rule do: every hypothesis they emit
has its first word in the lexicon. -/
theorem c6_checking_rules :
    ∀ (lex : Lexicon) (t : Text) (w : Word) (r : Text),
      ((w, r) ∈ reverse_dirgha_sandhi lex t → w ∈ lex) ∧
      ((w, r) ∈ reverse_yan_sandhi lex t → w ∈ lex) ∧
      ((w, r) ∈ reverse_visarga_before_voiced lex t → w ∈ lex) ∧
      ((w, r) ∈ reverse_visarga_before_unvoiced lex t → w ∈ lex) ∧
      ((w, r) ∈ reverse_consonant_clusters lex t → w ∈ lex) := by
  intro lex t w r
  refine ⟨dirgha_mem_lex, ?_, visarga_voiced_mem_lex, visarga_unvoiced_mem_lex,
    clusters_mem_lex⟩
  intro h
  unfold reverse_yan_sandhi at h
  rcases List.mem_append.mp h with hin | hin
  · exact yanHalf_mem_lex hin
  · exact yanHalf_mem_lex hin

/-- Witness for C6's amended statement: a concrete dīrgha hypothesis whose
first word is in the lexicon. -/
theorem c6_checking_rules_witness :
    (['b','a'], ['a','ā']) ∈ reverse_dirgha_sandhi [['b','a'], ['a','ā']] ['b','x','ā'] ∧
    (['b','a'] : Word) ∈ ([['b','a'], ['a','ā']] : Lexicon) :=
  ⟨by decide,
   (c6_checking_rules [['b','a'], ['a','ā']] ['b','x','ā'] ['b','a'] ['a','ā']).1
     (by decide)⟩

end SandhiRev
